import Mathlib

/-!
# Verification of the eth1 bridge: deposit Merkle tree and Eth1Data block cache

Shallow embedding of `beacon_node/eth1/src/cache.rs` (`BlockCache`,
`fetch_eth1_data`, `fetch_eth1_data_in_range`) and of the deposit Merkle
tree (`DepositTree`), whose implementation is exercised by
`beacon_node/eth1-http/tests/test.rs`.

Machine integers are modelled as `Nat` with explicit `% 2^64` where the code
truncates (`U256::as_u64`).  Hash functions are parameters: a 32-byte word is
modelled as a `Nat`, a two-child combiner as `Nat → Nat → Nat`, and the
deposit-data leaf hash (`tree_hash_root`) as `Nat → Nat`, so every theorem
holds for the real byte-exact hashes as a special case.
-/

/-! ## Merkle tree primitives (depth-`d` subtree, zero-padded) -/

/-- Zero-subtree hashes: `zeros H d` is the root of a depth-`d` subtree all of
whose leaves are the zero leaf `0`. -/
def zeros (H : Nat → Nat → Nat) : Nat → Nat
  | 0 => 0
  | d + 1 => H (zeros H d) (zeros H d)

/-- Root of the depth-`d` Merkle subtree over the leaf list `ls` (leaves beyond
`ls.length` are the zero leaf).  The empty-list shortcut only avoids an
exponential recursion; `merkleRoot_succ` shows the uniform recurrence holds. -/
def merkleRoot (H : Nat → Nat → Nat) : Nat → List Nat → Nat
  | 0, ls => ls.headD 0
  | d + 1, ls =>
    if ls.isEmpty then zeros H (d + 1)
    else H (merkleRoot H d (ls.take (2 ^ d))) (merkleRoot H d (ls.drop (2 ^ d)))

/-- Sibling path (bottom-up) for the leaf at `i` in the depth-`d` subtree
over `ls`. -/
def merklePath (H : Nat → Nat → Nat) : Nat → List Nat → Nat → List Nat
  | 0, _, _ => []
  | d + 1, ls, i =>
    if i < 2 ^ d then
      merklePath H d (ls.take (2 ^ d)) i ++ [merkleRoot H d (ls.drop (2 ^ d))]
    else
      merklePath H d (ls.drop (2 ^ d)) (i - 2 ^ d) ++ [merkleRoot H d (ls.take (2 ^ d))]

/-- Root recomputed from a leaf and a bottom-up sibling path, steered by the
bits of `index` (least significant first) — the computation inside the
`merkle_proof` crate's `verify_merkle_proof`. -/
def merkleProofRoot (H : Nat → Nat → Nat) : Nat → List Nat → Nat → Nat
  | leaf, [], _ => leaf
  | leaf, p :: rest, i =>
    merkleProofRoot H (if i % 2 = 0 then H leaf p else H p leaf) rest (i / 2)

/-- `verify_merkle_proof(leaf, branch, depth, index, root)`: the branch has
exactly `depth` elements and folds from `leaf` back to `root`. -/
def verify_merkle_proof (H : Nat → Nat → Nat) (leaf : Nat) (branch : List Nat)
    (depth : Nat) (index : Nat) (root : Nat) : Bool :=
  branch.length == depth && merkleProofRoot H leaf branch index == root

theorem merkleRoot_nil (H : Nat → Nat → Nat) (d : Nat) :
    merkleRoot H d [] = zeros H d := by
  cases d <;> simp [merkleRoot, zeros]

theorem merkleRoot_succ (H : Nat → Nat → Nat) (d : Nat) (ls : List Nat) :
    merkleRoot H (d + 1) ls
      = H (merkleRoot H d (ls.take (2 ^ d))) (merkleRoot H d (ls.drop (2 ^ d))) := by
  by_cases h : ls.isEmpty
  · rw [List.isEmpty_iff] at h
    subst h
    simp [merkleRoot, merkleRoot_nil, zeros]
  · simp [merkleRoot, h]

theorem merklePath_length (H : Nat → Nat → Nat) (d : Nat) (ls : List Nat) (i : Nat) :
    (merklePath H d ls i).length = d := by
  induction d generalizing ls i with
  | zero => rfl
  | succ d ih =>
    unfold merklePath
    by_cases h : i < 2 ^ d <;> simp [h, ih]

theorem merkleProofRoot_append (H : Nat → Nat → Nat) (leaf : Nat)
    (p₁ p₂ : List Nat) (i : Nat) :
    merkleProofRoot H leaf (p₁ ++ p₂) i
      = merkleProofRoot H (merkleProofRoot H leaf p₁ i) p₂ (i / 2 ^ p₁.length) := by
  induction p₁ generalizing leaf i with
  | nil => simp [merkleProofRoot]
  | cons p rest ih =>
    simp only [List.cons_append, List.append_eq, merkleProofRoot, List.length_cons]
    rw [ih]
    congr 1
    rw [Nat.div_div_eq_div_mul, pow_succ, mul_comm (2 ^ rest.length) 2,
      ← Nat.div_div_eq_div_mul]

theorem merkleProofRoot_mod (H : Nat → Nat → Nat) (leaf : Nat)
    (p : List Nat) (i : Nat) :
    merkleProofRoot H leaf p (i % 2 ^ p.length) = merkleProofRoot H leaf p i := by
  induction p generalizing leaf i with
  | nil => rfl
  | cons q rest ih =>
    simp only [merkleProofRoot, List.length_cons]
    have hpar : i % 2 ^ (rest.length + 1) % 2 = i % 2 :=
      Nat.mod_mod_of_dvd i ⟨2 ^ rest.length, by rw [pow_succ, mul_comm]⟩
    have hdiv : i % 2 ^ (rest.length + 1) / 2 = i / 2 % 2 ^ rest.length := by
      rw [pow_succ, mul_comm, Nat.mod_mul_right_div_self]
    simp only [hpar, hdiv]
    exact ih _ _

/-- Core Merkle lemma: the sibling path produced by `merklePath` folds the
leaf at position `i` back up to the subtree root. -/
theorem merkleProofRoot_path (H : Nat → Nat → Nat) (d : Nat) (ls : List Nat)
    (i : Nat) (hi : i < 2 ^ d) :
    merkleProofRoot H (ls.getD i 0) (merklePath H d ls i) i = merkleRoot H d ls := by
  induction d generalizing ls i with
  | zero =>
    interval_cases i
    cases ls <;> rfl
  | succ d ih =>
    rw [merkleRoot_succ]
    by_cases hlt : i < 2 ^ d
    · rw [merklePath, if_pos hlt, merkleProofRoot_append, merklePath_length]
      have hgd : (ls.take (2 ^ d)).getD i 0 = ls.getD i 0 := by
        simp [List.getD, List.getElem?_take, hlt]
      have hdiv : i / 2 ^ d = 0 := Nat.div_eq_of_lt hlt
      rw [← hgd, ih _ _ hlt, hdiv]
      simp [merkleProofRoot]
    · have hge : 2 ^ d ≤ i := Nat.le_of_not_lt hlt
      have h2 : 2 ^ (d + 1) = 2 ^ d + 2 ^ d := by rw [pow_succ]; omega
      have hi' : i < 2 ^ d + 2 ^ d := by rw [← h2]; exact hi
      have hsub : i - 2 ^ d < 2 ^ d := Nat.sub_lt_left_of_lt_add hge hi'
      have hgd : (ls.drop (2 ^ d)).getD (i - 2 ^ d) 0 = ls.getD i 0 := by
        have hcan : 2 ^ d + (i - 2 ^ d) = i := Nat.add_sub_cancel' hge
        simp [List.getD, List.getElem?_drop, hcan]
      have hmod : i % 2 ^ d = i - 2 ^ d := by
        rw [Nat.mod_eq_sub_mod hge, Nat.mod_eq_of_lt hsub]
      have hdiv : i / 2 ^ d = 1 := by
        have hpos : 0 < 2 ^ d := Nat.pos_pow_of_pos d (by omega)
        rw [Nat.div_eq_sub_div hpos hge, Nat.div_eq_of_lt hsub]
      have hinner : merkleProofRoot H (ls.getD i 0)
          (merklePath H d (ls.drop (2 ^ d)) (i - 2 ^ d)) i
            = merkleRoot H d (ls.drop (2 ^ d)) := by
        rw [← merkleProofRoot_mod, merklePath_length, hmod, ← hgd]
        exact ih _ _ hsub
      rw [merklePath, if_neg hlt, merkleProofRoot_append, merklePath_length, hinner, hdiv]
      simp [merkleProofRoot]

/-! ## DepositTree

The `DepositTree` implementation is not part of the sources here; only its
integration test (`beacon_node/eth1-http/tests/test.rs`, `deposit_tree::consistency`)
is.  The definitions below are therefore modelled from the spec (§3, §4.1, §6)
and checked against the shape the test exercises. -/

/-- A parsed deposit log: `{index, deposit_data}`.  `deposit_data` is the
opaque `DepositData` record, modelled as a `Nat`; its structural hash
(`tree_hash_root`) is the `leafHash` parameter below. -/
structure DepositLog where
  index : Nat
  deposit_data : Nat
  deriving DecidableEq, Repr

/-- Modelled from the spec: the `DepositTree` is an ordered, append-only
sequence of leaves (spec §3); we keep the ingested deposit-data records in
order, leaf `i` being `leafHash (logs[i])`. -/
structure DepositTree where
  logs : List Nat
  deriving DecidableEq, Repr

/-- Error taxonomy of the deposit tree operations (spec §7). -/
inductive DepositTreeError where
  | outOfOrderInsert
  | insufficientHistory
  | rangeError
  deriving DecidableEq, Repr

/-- Modelled from the spec: `insert_log(log)` fails with `OutOfOrderInsert` if
`log.index != leaf_count` and leaves the tree unchanged; otherwise it appends
the leaf for `log.deposit_data` (spec §4.1).  State passing makes the
"on failure, state is unchanged" part of the model observable. -/
def insert_log (t : DepositTree) (log : DepositLog) :
    Except DepositTreeError Unit × DepositTree :=
  if log.index ≠ t.logs.length then (.error .outOfOrderInsert, t)
  else (.ok (), ⟨t.logs ++ [log.deposit_data]⟩)

/-- The little-endian deposit-count mix-in leaf: `little_endian_64(count)`
zero-padded to 32 bytes, read back as the little-endian value of the word —
i.e. the count itself (spec §6). -/
def mixInLeaf (count : Nat) : Nat := count

/-- Modelled from the spec: the externally reported deposit root after the
contract has accepted `datas`: the depth-32 subtree root over the leaf hashes
combined with the little-endian deposit-count mix-in leaf (spec §6). -/
def contractReportedRoot (H : Nat → Nat → Nat) (leafHash : Nat → Nat)
    (datas : List Nat) : Nat :=
  H (merkleRoot H 32 (datas.map leafHash)) (mixInLeaf datas.length)

/-- Modelled from the spec: `get_deposits(index_range, deposit_count, depth)`
returns `(root_at_deposit_count, [(deposit_data, proof)])` for every index in
the range; fails with `InsufficientHistory` if `deposit_count` exceeds the
ingested leaves and with a range error if the range exceeds `deposit_count`
(spec §4.1).  Each proof is the `depth` subtree siblings plus the mix-in leaf. -/
def get_deposits (H : Nat → Nat → Nat) (leafHash : Nat → Nat) (t : DepositTree)
    (rangeStart rangeEnd : Nat) (deposit_count : Nat) (depth : Nat) :
    Except DepositTreeError (Nat × List (Nat × List Nat)) :=
  if deposit_count > t.logs.length then .error .insufficientHistory
  else if rangeEnd > deposit_count then .error .rangeError
  else
    let leaves := (t.logs.take deposit_count).map leafHash
    let root := H (merkleRoot H depth leaves) (mixInLeaf deposit_count)
    .ok (root, (List.range' rangeStart (rangeEnd - rangeStart)).map fun i =>
      (t.logs.getD i 0, merklePath H depth leaves i ++ [mixInLeaf deposit_count]))

/-- Sequential ingestion of a list of logs, aborting on the first failure. -/
def insertAll : DepositTree → List DepositLog → Except DepositTreeError DepositTree
  | t, [] => .ok t
  | t, log :: rest =>
    match insert_log t log with
    | (.ok _, t') => insertAll t' rest
    | (.error e, _) => .error e

/-- The sequentially-indexed logs carrying `datas`, starting at index `k`. -/
def mkLogsFrom (k : Nat) : List Nat → List DepositLog
  | [] => []
  | d :: rest => ⟨k, d⟩ :: mkLogsFrom (k + 1) rest

theorem insertAll_mkLogsFrom (pre datas : List Nat) :
    insertAll ⟨pre⟩ (mkLogsFrom pre.length datas) = .ok ⟨pre ++ datas⟩ := by
  induction datas generalizing pre with
  | nil => simp [mkLogsFrom, insertAll]
  | cons d rest ih =>
    have hstep : insert_log ⟨pre⟩ ⟨pre.length, d⟩ = (.ok (), ⟨pre ++ [d]⟩) := by
      simp [insert_log]
    have hlen : (pre ++ [d]).length = pre.length + 1 := by simp
    simp only [mkLogsFrom, insertAll, hstep]
    rw [← hlen, ih]
    simp

/-- C5: `insert_log(log)` fails with `OutOfOrderInsert` exactly when
`log.index` differs from the current leaf count, and on failure the tree is
completely unchanged (hence its leaf count and every root derived from it). -/
theorem insert_log_atomic (t : DepositTree) (log : DepositLog) :
    ((insert_log t log).1 = .error .outOfOrderInsert ↔ log.index ≠ t.logs.length) ∧
    (∀ e : DepositTreeError,
      (insert_log t log).1 = .error e → (insert_log t log).2 = t) := by
  by_cases h : log.index = t.logs.length <;> simp [insert_log, h]

/-- C5 witness: a concrete out-of-order insert fails and leaves the tree as
it was. -/
theorem insert_log_atomic_witness :
    (insert_log ⟨[5]⟩ ⟨3, 9⟩).1 = .error .outOfOrderInsert ∧
    (insert_log ⟨[5]⟩ ⟨3, 9⟩).2 = ⟨[5]⟩ := by
  have h := insert_log_atomic ⟨[5]⟩ ⟨3, 9⟩
  exact ⟨h.1.mpr (by decide), h.2 .outOfOrderInsert (h.1.mpr (by decide))⟩

/-- C4: inserting `n` sequentially-indexed deposit logs into an empty tree
succeeds, and `get_deposits(0..n, n, 32)` then returns the externally reported
deposit root (depth-32 subtree root combined with the little-endian
deposit-count mix-in leaf) together with one proof per index, each proof
having 33 elements and verifying against that root at total depth 33. -/
theorem deposit_tree_consistency (H : Nat → Nat → Nat) (leafHash : Nat → Nat)
    (datas : List Nat) (hn : datas.length ≤ 2 ^ 32) :
    insertAll ⟨[]⟩ (mkLogsFrom 0 datas) = .ok ⟨datas⟩ ∧
    ∃ deps,
      get_deposits H leafHash ⟨datas⟩ 0 datas.length datas.length 32
        = .ok (contractReportedRoot H leafHash datas, deps) ∧
      deps.length = datas.length ∧
      ∀ i, i < datas.length →
        (deps.getD i (0, [])).2.length = 33 ∧
        verify_merkle_proof H (leafHash (datas.getD i 0)) (deps.getD i (0, [])).2
          33 i (contractReportedRoot H leafHash datas) = true := by
  constructor
  · simpa using insertAll_mkLogsFrom [] datas
  · refine ⟨(List.range' 0 (datas.length - 0)).map fun i =>
      (datas.getD i 0,
        merklePath H 32 (datas.map leafHash) i ++ [mixInLeaf datas.length]), ?_, ?_, ?_⟩
    · simp [get_deposits, contractReportedRoot, List.take_length]
    · simp
    · intro i hi
      have hi32 : i < 2 ^ 32 := Nat.lt_of_lt_of_le hi hn
      have hget : ((List.range' 0 (datas.length - 0)).map fun i =>
          (datas.getD i 0,
            merklePath H 32 (datas.map leafHash) i ++ [mixInLeaf datas.length])).getD
              i (0, [])
          = (datas.getD i 0,
              merklePath H 32 (datas.map leafHash) i ++ [mixInLeaf datas.length]) := by
        simp [List.getD, List.getElem?_map, List.getElem?_range', hi]
      rw [hget]
      have hlen : (merklePath H 32 (datas.map leafHash) i
          ++ [mixInLeaf datas.length]).length = 33 := by
        simp [merklePath_length]
      refine ⟨hlen, ?_⟩
      have hsome : datas[i]? = some datas[i] := List.getElem?_eq_getElem hi
      have hleaf : (datas.map leafHash).getD i 0 = leafHash (datas.getD i 0) := by
        simp [List.getD, List.getElem?_map, hsome]
      have hfold : merkleProofRoot H (leafHash (datas.getD i 0))
          (merklePath H 32 (datas.map leafHash) i ++ [mixInLeaf datas.length]) i
            = contractReportedRoot H leafHash datas := by
        rw [merkleProofRoot_append, merklePath_length, ← hleaf,
          merkleProofRoot_path H 32 (datas.map leafHash) i hi32,
          Nat.div_eq_of_lt hi32]
        simp [merkleProofRoot, contractReportedRoot]
      simp only [verify_merkle_proof, hlen, hfold, beq_self_eq_true, Bool.and_self]

/-- C4 witness: the consistency theorem evaluated at a concrete hash pair and
two concrete deposits. -/
theorem deposit_tree_consistency_witness :
    insertAll ⟨[]⟩ (mkLogsFrom 0 [17, 23]) = .ok ⟨[17, 23]⟩ ∧
    ∃ deps,
      get_deposits (fun a b => (3 * a + 5 * b + 7) % 1000003) (fun d => (d + 11) % 1000003)
          ⟨[17, 23]⟩ 0 ([17, 23] : List Nat).length ([17, 23] : List Nat).length 32
        = .ok (contractReportedRoot (fun a b => (3 * a + 5 * b + 7) % 1000003)
            (fun d => (d + 11) % 1000003) [17, 23], deps) ∧
      deps.length = ([17, 23] : List Nat).length ∧
      ∀ i, i < ([17, 23] : List Nat).length →
        (deps.getD i (0, [])).2.length = 33 ∧
        verify_merkle_proof (fun a b => (3 * a + 5 * b + 7) % 1000003)
          ((fun d => (d + 11) % 1000003) (([17, 23] : List Nat).getD i 0))
          (deps.getD i (0, [])).2 33 i
          (contractReportedRoot (fun a b => (3 * a + 5 * b + 7) % 1000003)
            (fun d => (d + 11) % 1000003) [17, 23]) = true :=
  deposit_tree_consistency _ _ [17, 23] (by decide)

/-! ## BlockCache (`beacon_node/eth1/src/cache.rs`)

`U256` values are `Nat` (all arithmetic used is `checked_sub ... unwrap_or(0)`,
which is exactly `Nat` truncated subtraction); `U256::as_u64` is `% 2 ^ 64`.
The `BTreeMap<U256, Eth1Data>` is a key-sorted association list whose `insert`
overwrites.  Futures are evaluated to their results; `stream::futures_ordered`
plus `for_each` yields results in index order, so `update_cache` is the
sequential fold below.  Each operation also returns the list of network calls
it initiates on the fetcher, in initiation order. -/

/-- The subset of `web3::error::Error` this code constructs or forwards. -/
inductive Web3Err where
  | unreachable
  | decoder (msg : String)
  | invalidResponse (msg : String)
  | transport (msg : String)
  | internal
  deriving DecidableEq, Repr

/-- `crate::error::Error` as used by `cache.rs`: a wrapped web3 error. -/
inductive Error where
  | web3Error (e : Web3Err)
  deriving DecidableEq, Repr

/-- `Eth1Data { deposit_root, deposit_count, block_hash }` (hashes as `Nat`). -/
structure Eth1Data where
  deposit_root : Nat
  deposit_count : Nat
  block_hash : Nat
  deriving DecidableEq, Repr

/-- One network call initiated on the `Eth1DataFetcher`. -/
inductive Call where
  | currentBlockNumber
  | depositRoot (height : Nat)
  | depositCount (height : Nat)
  | blockHash (height : Nat)
  deriving DecidableEq, Repr

/-- A deterministic snapshot of the remote fetcher's behaviour
(`Eth1DataFetcher`).  The outer `Except` is the future's error channel; the
item of `get_deposit_count` is itself a `Result<u64>` (the code writes
`data.1?`) and the item of `get_block_hash_by_height` is an `Option`
(the code writes `data.2.ok_or(...)`). -/
structure Fetcher where
  get_current_block_number : Except Error Nat
  get_deposit_root : Nat → Except Error Nat
  get_deposit_count : Nat → Except Error (Except Error Nat)
  get_block_hash_by_height : Nat → Except Error (Option Nat)

/-- The `BlockCache` state: the `BTreeMap` and the `last_block` watermark. -/
structure CacheState where
  cache : List (Nat × Eth1Data)
  last_block : Nat
  deriving DecidableEq, Repr

/-- `BTreeMap::get`. -/
def mapGet (k : Nat) : List (Nat × Eth1Data) → Option Eth1Data
  | [] => none
  | (k', v') :: rest => if k = k' then some v' else mapGet k rest

/-- `BTreeMap::insert`: key-ordered, overwriting an existing key. -/
def mapInsert (k : Nat) (v : Eth1Data) : List (Nat × Eth1Data) → List (Nat × Eth1Data)
  | [] => [(k, v)]
  | (k', v') :: rest =>
    if k < k' then (k, v) :: (k', v') :: rest
    else if k = k' then (k, v) :: rest
    else (k', v') :: mapInsert k v rest

/-- `BlockCache::new(fetcher)`. -/
def CacheState.new : CacheState := ⟨[], 0⟩

/-- The three per-height requests `fetch_eth1_data` initiates (it queries the
fetcher at `block_number.as_u64()`). -/
def perHeightCalls (bn : Nat) : List Call :=
  [.depositRoot (bn % 2 ^ 64), .depositCount (bn % 2 ^ 64), .blockHash (bn % 2 ^ 64)]

/-- `fetch_eth1_data(distance, current_block_number, fetcher)`:
`block_number = current_block_number.checked_sub(distance).unwrap_or(0)`;
the three queries are joined (`join3`), the deposit count's inner result is
propagated with `?`, and an absent block becomes
`InvalidResponse("Block at given height does not exist")`.  The nested
`Except` mirrors `Future<Item = Result<(U256, Eth1Data)>, Error = Error>`. -/
def fetch_eth1_data (distance : Nat) (current_block_number : Nat) (f : Fetcher) :
    Except Error (Except Error (Nat × Eth1Data)) :=
  match f.get_deposit_root ((current_block_number - distance) % 2 ^ 64) with
  | .error e => .error e
  | .ok deposit_root =>
    match f.get_deposit_count ((current_block_number - distance) % 2 ^ 64) with
    | .error e => .error e
    | .ok deposit_count =>
      match f.get_block_hash_by_height ((current_block_number - distance) % 2 ^ 64) with
      | .error e => .error e
      | .ok block_hash =>
        .ok (match deposit_count with
          | .error e => .error e
          | .ok count =>
            match block_hash with
            | none => .error (.web3Error (.invalidResponse ("Block at given height does not exist")))
            | some h => .ok (current_block_number - distance, ⟨deposit_root, count, h⟩))

/-- The body of `update_cache`'s `for_each` over
`fetch_eth1_data_in_range(0, distance, curr, fetcher)`: results arrive in
index order, each successful one is inserted at once, and the first error
(outer or inner, via `let data = data?`) aborts the fold. -/
def updateGo (f : Fetcher) (curr : Nat) :
    List Nat → CacheState → Except Error Unit × CacheState
  | [], s => (.ok (), s)
  | i :: rest, s =>
    match fetch_eth1_data i curr f with
    | .error e => (.error e, s)
    | .ok (.error e) => (.error e, s)
    | .ok (.ok (bn, data)) =>
      updateGo f curr rest { s with cache := mapInsert bn data s.cache }

/-- The calls initiated by `fetch_eth1_data_in_range(0, d, curr, fetcher)`:
`stream::futures_ordered` is built from the whole iterator, so every
per-height future is created up front. -/
def rangeCalls (curr : Nat) : List Nat → List Call
  | [] => []
  | i :: rest => perHeightCalls (curr - i) ++ rangeCalls curr rest

/-- `BlockCache::update_cache(distance)`: query the head, drive
`fetch_eth1_data_in_range(0, distance, curr, fetcher)` inserting each result,
and on success set `last_block = curr.as_u64()`. -/
def update_cache (distance : Nat) (f : Fetcher) (s : CacheState) :
    Except Error Unit × CacheState × List Call :=
  match f.get_current_block_number with
  | .error e => (.error e, s, [.currentBlockNumber])
  | .ok curr =>
    match updateGo f curr (List.range distance) s with
    | (.error e, s') => (.error e, s', .currentBlockNumber :: rangeCalls curr (List.range distance))
    | (.ok _, s') =>
      (.ok (), { s' with last_block := curr % 2 ^ 64 },
        .currentBlockNumber :: rangeCalls curr (List.range distance))

/-- `BlockCache::get_eth1_data(distance)`: fresh head query, cache lookup at
`head - distance`, and on a miss one synchronous `fetch_eth1_data` whose
successful result is inserted; an inner fetch error is swallowed and replaced
by `InvalidResponse("Failed to fetch eth1 data")` (the branch the code marks
`Note: Should never reach here`). -/
def get_eth1_data (distance : Nat) (f : Fetcher) (s : CacheState) :
    Except Error Eth1Data × CacheState × List Call :=
  match f.get_current_block_number with
  | .error e => (.error e, s, [.currentBlockNumber])
  | .ok current_block_number =>
    match mapGet (current_block_number - distance) s.cache with
    | some result => (.ok result, s, [.currentBlockNumber])
    | none =>
      match fetch_eth1_data distance current_block_number f with
      | .error e => (.error e, s,
          .currentBlockNumber :: perHeightCalls (current_block_number - distance))
      | .ok (.ok (bn, eth1_data)) =>
        (.ok eth1_data, { s with cache := mapInsert bn eth1_data s.cache },
          .currentBlockNumber :: perHeightCalls (current_block_number - distance))
      | .ok (.error _) =>
        (.error (.web3Error (.invalidResponse ("Failed to fetch eth1 data"))), s,
          .currentBlockNumber :: perHeightCalls (current_block_number - distance))

/-- The fold behind `get_eth1_data_in_range`: successive `get_eth1_data`
calls, keeping successful values in order and dropping failures
(`.map(...).flatten()`). -/
def rangeGo (f : Fetcher) : List Nat → CacheState → List Eth1Data × CacheState × List Call
  | [], s => ([], s, [])
  | h :: rest, s =>
    let step := get_eth1_data h f s
    let next := rangeGo f rest step.2.1
    match step.1 with
    | .ok d => (d :: next.1, next.2.1, step.2.2 ++ next.2.2)
    | .error _ => (next.1, next.2.1, step.2.2 ++ next.2.2)

/-- `BlockCache::get_eth1_data_in_range(start, end)`. -/
def get_eth1_data_in_range (start stop : Nat) (f : Fetcher) (s : CacheState) :
    List Eth1Data × CacheState × List Call :=
  rangeGo f (List.range' start (stop - start)) s

theorem mapGet_mapInsert (h k : Nat) (v : Eth1Data) (l : List (Nat × Eth1Data)) :
    mapGet h (mapInsert k v l) = if h = k then some v else mapGet h l := by
  induction l with
  | nil => by_cases hk : h = k <;> simp [mapInsert, mapGet, hk]
  | cons p rest ih =>
    obtain ⟨k', v'⟩ := p
    simp only [mapInsert]
    by_cases h1 : k < k'
    · rw [if_pos h1]
      by_cases hk : h = k <;> simp [mapGet, hk]
    · rw [if_neg h1]
      by_cases h3 : k = k'
      · rw [if_pos h3]
        by_cases hk : h = k
        · subst hk; subst h3; simp [mapGet]
        · have hk' : h ≠ k' := fun hh => hk (hh.trans h3.symm)
          simp [mapGet, hk, hk']
      · rw [if_neg h3]
        by_cases h2 : h = k'
        · have hk : h ≠ k := fun hh => h3 (hh.symm.trans h2)
          have h3' : k' ≠ k := fun hh => h3 hh.symm
          simp [mapGet, h2, hk, h3']
        · simp [mapGet, h2, ih]

/-- A successful per-height fetch always reports the height it was asked for:
`block_number = current_block_number - distance`. -/
theorem fetch_eth1_data_ok (f : Fetcher) (i curr bn : Nat) (d : Eth1Data)
    (h : fetch_eth1_data i curr f = .ok (.ok (bn, d))) : bn = curr - i := by
  unfold fetch_eth1_data at h
  split at h
  · simp at h
  · split at h
    · simp at h
    · split at h
      · simp at h
      · injection h with h
        split at h
        · simp at h
        · split at h
          · simp at h
          · injection h with h
            exact (congrArg Prod.fst h).symm

/-- Whether the per-height fetch at distance `i` (head `curr`) fully succeeds. -/
def fetchOk (f : Fetcher) (curr : Nat) (i : Nat) : Bool :=
  match fetch_eth1_data i curr f with
  | .ok (.ok _) => true
  | _ => false

/-- The cache insertion `update_cache`'s `for_each` performs for distance `i`
(a no-op if the fetch did not fully succeed). -/
def commitFetch (f : Fetcher) (curr : Nat) (c : List (Nat × Eth1Data)) (i : Nat) :
    List (Nat × Eth1Data) :=
  match fetch_eth1_data i curr f with
  | .ok (.ok (bn, d)) => mapInsert bn d c
  | _ => c

theorem updateGo_last_block (f : Fetcher) (curr : Nat) (L : List Nat) (s : CacheState) :
    (updateGo f curr L s).2.last_block = s.last_block := by
  induction L generalizing s with
  | nil => rfl
  | cons i rest ih =>
    cases hf : fetch_eth1_data i curr f with
    | error e => simp [updateGo, hf]
    | ok r =>
      cases r with
      | error e => simp [updateGo, hf]
      | ok p =>
        obtain ⟨bn, d⟩ := p
        simp only [updateGo, hf]
        exact ih _

/-- Whether the fold succeeds or aborts, the cache it leaves behind is the
original one with exactly the successful prefix of fetches committed. -/
theorem updateGo_cache (f : Fetcher) (curr : Nat) (L : List Nat) (s : CacheState) :
    (updateGo f curr L s).2.cache
      = (L.takeWhile (fetchOk f curr)).foldl (commitFetch f curr) s.cache := by
  induction L generalizing s with
  | nil => rfl
  | cons i rest ih =>
    cases hf : fetch_eth1_data i curr f with
    | error e => simp [updateGo, hf, List.takeWhile_cons, fetchOk]
    | ok r =>
      cases r with
      | error e => simp [updateGo, hf, List.takeWhile_cons, fetchOk]
      | ok p =>
        obtain ⟨bn, d⟩ := p
        simp only [updateGo, hf, List.takeWhile_cons, fetchOk]
        simp [commitFetch, hf, ih]

theorem updateGo_preserves_isSome (f : Fetcher) (curr : Nat) (L : List Nat)
    (s : CacheState) (h : Nat) (hs : (mapGet h s.cache).isSome = true) :
    (mapGet h (updateGo f curr L s).2.cache).isSome = true := by
  induction L generalizing s with
  | nil => exact hs
  | cons i rest ih =>
    cases hf : fetch_eth1_data i curr f with
    | error e => simpa [updateGo, hf] using hs
    | ok r =>
      cases r with
      | error e => simpa [updateGo, hf] using hs
      | ok p =>
        obtain ⟨bn, d⟩ := p
        simp only [updateGo, hf]
        apply ih
        simp only [mapGet_mapInsert]
        by_cases hbk : h = bn <;> simp [hbk, hs]

/-- After a fold that fully succeeded, every requested height is present. -/
theorem updateGo_ok_mem (f : Fetcher) (curr : Nat) (L : List Nat) (s : CacheState)
    (hok : (updateGo f curr L s).1 = .ok ()) :
    ∀ i ∈ L, (mapGet (curr - i) (updateGo f curr L s).2.cache).isSome = true := by
  induction L generalizing s with
  | nil => intro i hi; cases hi
  | cons j rest ih =>
    intro i hi
    cases hf : fetch_eth1_data j curr f with
    | error e => simp [updateGo, hf] at hok
    | ok r =>
      cases r with
      | error e => simp [updateGo, hf] at hok
      | ok p =>
        obtain ⟨bn, d⟩ := p
        have hbn : bn = curr - j := fetch_eth1_data_ok f j curr bn d hf
        simp only [updateGo, hf] at hok ⊢
        rcases List.mem_cons.mp hi with hij | hirest
        · subst hij
          apply updateGo_preserves_isSome
          simp [mapGet_mapInsert, hbn]
        · exact ih _ hok i hirest

/-! ## Concrete fetcher behaviours used as test doubles -/

/-- A fully successful fetcher: head `5`, root `100 + h`, count `1`, block
hash `200 + h` at every height `h`. -/
def okFetcher : Fetcher where
  get_current_block_number := .ok 5
  get_deposit_root := fun h => .ok (100 + h)
  get_deposit_count := fun _ => .ok (.ok 1)
  get_block_hash_by_height := fun h => .ok (some (200 + h))

/-- A fully successful fetcher reporting different chain data for the same
heights (the remote chain has reorganised). -/
def okFetcher2 : Fetcher where
  get_current_block_number := .ok 5
  get_deposit_root := fun h => .ok (300 + h)
  get_deposit_count := fun _ => .ok (.ok 2)
  get_block_hash_by_height := fun h => .ok (some (400 + h))

/-- Head `10`, but only the block at height `10` exists: the fetch at
distance `1` fails with a missing block. -/
def partialFetcher : Fetcher where
  get_current_block_number := .ok 10
  get_deposit_root := fun h => .ok (100 + h)
  get_deposit_count := fun _ => .ok (.ok 1)
  get_block_hash_by_height := fun h => if h = 10 then .ok (some 210) else .ok none

/-- Head `5`; the block at every height is absent. -/
def missingBlockFetcher : Fetcher where
  get_current_block_number := .ok 5
  get_deposit_root := fun h => .ok (100 + h)
  get_deposit_count := fun _ => .ok (.ok 1)
  get_block_hash_by_height := fun _ => .ok none

/-- Head `5`; the deposit-count response does not decode (inner error). -/
def malformedCountFetcher : Fetcher where
  get_current_block_number := .ok 5
  get_deposit_root := fun h => .ok (100 + h)
  get_deposit_count := fun _ => .ok (.error (.web3Error (.decoder ("bad count"))))
  get_block_hash_by_height := fun h => .ok (some (200 + h))

/-! ## C1: `update_cache` failure atomicity -/

/-- C1 counterexample: with head `10` and the block at height `9` missing,
`update_cache(2)` fails as a whole — but the entry for height `10`, fetched
successfully before the failure, has already been committed to the cache. -/
theorem update_cache_partial_commit_cex :
    (update_cache 2 partialFetcher CacheState.new).1
        = .error (.web3Error (.invalidResponse ("Block at given height does not exist"))) ∧
    (update_cache 2 partialFetcher CacheState.new).2.1.cache = [(10, ⟨110, 1, 210⟩)] ∧
    (update_cache 2 partialFetcher CacheState.new).2.1.cache ≠ CacheState.new.cache := by
  refine ⟨rfl, rfl, by decide⟩

/-- C1 (amended): if the head query succeeded and some per-height fetch
fails, the whole `update_cache` call fails and `last_block` is unchanged, but
the cache retains the entries of the successful prefix of per-height fetches
(those at distances before the first failing one) — a partial commit. -/
theorem update_cache_error_atomicity (f : Fetcher) (s : CacheState)
    (dist curr : Nat) (e : Error) (hhead : f.get_current_block_number = .ok curr)
    (herr : (update_cache dist f s).1 = .error e) :
    (update_cache dist f s).2.1.last_block = s.last_block ∧
    (update_cache dist f s).2.1.cache
      = ((List.range dist).takeWhile (fetchOk f curr)).foldl
          (commitFetch f curr) s.cache := by
  unfold update_cache at herr ⊢
  simp only [hhead] at herr ⊢
  rcases hup : updateGo f curr (List.range dist) s with ⟨r, s'⟩
  cases r with
  | error e' =>
    simp only [hup]
    have hlast := updateGo_last_block f curr (List.range dist) s
    have hcache := updateGo_cache f curr (List.range dist) s
    rw [hup] at hlast hcache
    exact ⟨hlast, hcache⟩
  | ok u =>
    simp only [hup] at herr
    simp at herr

/-- C1 witness: the amended statement at the concrete failing fetcher. -/
theorem update_cache_error_atomicity_witness :
    (update_cache 2 partialFetcher CacheState.new).2.1.last_block
        = CacheState.new.last_block ∧
    (update_cache 2 partialFetcher CacheState.new).2.1.cache
      = ((List.range 2).takeWhile (fetchOk partialFetcher 10)).foldl
          (commitFetch partialFetcher 10) CacheState.new.cache :=
  update_cache_error_atomicity partialFetcher CacheState.new 2 10
    (.web3Error (.invalidResponse ("Block at given height does not exist"))) rfl rfl

/-! ## C2: coverage of a successful `update_cache` -/

/-- C2 counterexample: with head `H = 5`, a successful `update_cache(1)`
leaves height `H - 1 = 4` uncached — the code fetches distances `0..d`
exclusive, so it covers `[H-d+1, H]`, not `[H-d, H]`. -/
theorem update_cache_coverage_cex :
    (update_cache 1 okFetcher CacheState.new).1 = .ok () ∧
    mapGet 4 (update_cache 1 okFetcher CacheState.new).2.1.cache = none := by
  exact ⟨rfl, rfl⟩

/-- C2 (amended): if `update_cache(d)` succeeds with freshly queried head
height `H` (a `u64`), then every height in `[H-d+1, H]` — i.e. `H - i` for
every distance `i < d` — has a cache entry, and `last_block = H`. -/
theorem update_cache_ok_coverage (f : Fetcher) (s : CacheState)
    (dist curr : Nat) (hhead : f.get_current_block_number = .ok curr)
    (hcurr : curr < 2 ^ 64) (hok : (update_cache dist f s).1 = .ok ()) :
    (update_cache dist f s).2.1.last_block = curr ∧
    ∀ i, i < dist →
      (mapGet (curr - i) (update_cache dist f s).2.1.cache).isSome = true := by
  have hm : curr % 2 ^ 64 = curr := Nat.mod_eq_of_lt hcurr
  unfold update_cache at hok ⊢
  simp only [hhead] at hok ⊢
  rcases hup : updateGo f curr (List.range dist) s with ⟨r, s'⟩
  cases r with
  | error e =>
    simp only [hup] at hok
    simp at hok
  | ok u =>
    cases u
    simp only [hup]
    constructor
    · exact hm
    · intro i hi
      have hmem : i ∈ List.range dist := List.mem_range.mpr hi
      have hsome := updateGo_ok_mem f curr (List.range dist) s (by rw [hup]) i hmem
      rw [hup] at hsome
      simpa using hsome

/-- C2 witness: after `update_cache(1)` against the all-success fetcher with
head `5`, height `5` is cached and `last_block = 5`. -/
theorem update_cache_ok_coverage_witness :
    (update_cache 1 okFetcher CacheState.new).2.1.last_block = 5 ∧
    ∀ i, i < 1 →
      (mapGet (5 - i) (update_cache 1 okFetcher CacheState.new).2.1.cache).isSome
        = true :=
  update_cache_ok_coverage okFetcher CacheState.new 1 5 rfl (by decide) rfl

/-! ## C10: `update_cache(0)` -/

/-- C10: if the head query succeeds with `H` (a `u64` height), then
`update_cache(0)` succeeds, inserts nothing, and still sets `last_block`
to `H`. -/
theorem update_cache_zero_distance (f : Fetcher) (s : CacheState) (curr : Nat)
    (hhead : f.get_current_block_number = .ok curr) (hcurr : curr < 2 ^ 64) :
    (update_cache 0 f s).1 = .ok () ∧
    (update_cache 0 f s).2.1.cache = s.cache ∧
    (update_cache 0 f s).2.1.last_block = curr := by
  have hm : curr % 2 ^ 64 = curr := Nat.mod_eq_of_lt hcurr
  unfold update_cache
  simp only [hhead, List.range_zero]
  exact ⟨rfl, rfl, hm⟩

/-- C10 witness: `update_cache(0)` on a nonempty cache with head `5`. -/
theorem update_cache_zero_distance_witness :
    (update_cache 0 okFetcher ⟨[(3, ⟨1, 1, 1⟩)], 7⟩).1 = .ok () ∧
    (update_cache 0 okFetcher ⟨[(3, ⟨1, 1, 1⟩)], 7⟩).2.1.cache = [(3, ⟨1, 1, 1⟩)] ∧
    (update_cache 0 okFetcher ⟨[(3, ⟨1, 1, 1⟩)], 7⟩).2.1.last_block = 5 :=
  update_cache_zero_distance okFetcher ⟨[(3, ⟨1, 1, 1⟩)], 7⟩ 5 rfl (by decide)

/-! ## C3: write-once cache entries -/

/-- C3 counterexample: `get_eth1_data(0)` caches height `5`; a later
`update_cache(1)` against a fetcher reporting different chain data
(`BTreeMap::insert` overwrites) changes the stored value for height `5`. -/
theorem cache_entry_overwritten_cex :
    mapGet 5 (get_eth1_data 0 okFetcher CacheState.new).2.1.cache
        = some ⟨105, 1, 205⟩ ∧
    (update_cache 1 okFetcher2 (get_eth1_data 0 okFetcher CacheState.new).2.1).1
        = .ok () ∧
    mapGet 5 (update_cache 1 okFetcher2
        (get_eth1_data 0 okFetcher CacheState.new).2.1).2.1.cache
      = some ⟨305, 2, 405⟩ ∧
    (⟨105, 1, 205⟩ : Eth1Data) ≠ ⟨305, 2, 405⟩ := by
  refine ⟨rfl, rfl, rfl, by decide⟩

/-- C3 (amended): `get_eth1_data` never changes the value stored at an
already-cached height — on a hit it reads, and on a miss it only inserts at
the missing height; only `update_cache` can overwrite an entry. -/
theorem get_eth1_data_never_overwrites (f : Fetcher) (s : CacheState)
    (dist h : Nat) (v : Eth1Data) (hv : mapGet h s.cache = some v) :
    mapGet h (get_eth1_data dist f s).2.1.cache = some v := by
  unfold get_eth1_data
  cases hhead : f.get_current_block_number with
  | error e => simpa using hv
  | ok curr =>
    simp only
    cases hc : mapGet (curr - dist) s.cache with
    | some r => simpa using hv
    | none =>
      simp only
      cases hf : fetch_eth1_data dist curr f with
      | error e => simpa using hv
      | ok r =>
        cases r with
        | error e' => simpa using hv
        | ok p =>
          obtain ⟨bn, data⟩ := p
          have hbn : bn = curr - dist := fetch_eth1_data_ok f dist curr bn data hf
          have hne : h ≠ bn := by
            intro hh
            rw [hh, hbn, hc] at hv
            exact Option.noConfusion hv
          simp [mapGet_mapInsert, hne, hv]

/-- C3 witness: a cached entry survives a further `get_eth1_data` call. -/
theorem get_eth1_data_never_overwrites_witness :
    mapGet 5 (get_eth1_data 3 okFetcher2 ⟨[(5, ⟨105, 1, 205⟩)], 0⟩).2.1.cache
      = some ⟨105, 1, 205⟩ :=
  get_eth1_data_never_overwrites okFetcher2 ⟨[(5, ⟨105, 1, 205⟩)], 0⟩ 3 5
    ⟨105, 1, 205⟩ rfl

/-! ## C6: reads after a successful update -/

/-- C6 counterexample: even on a cache hit `get_eth1_data` performs a head
query (one network call, not zero), and for `k = d` the target height
`H - d` is not cached at all, so a full per-height fetch is performed. -/
theorem get_eth1_data_cached_calls_cex :
    (update_cache 1 okFetcher CacheState.new).1 = .ok () ∧
    (get_eth1_data 0 okFetcher (update_cache 1 okFetcher CacheState.new).2.1).2.2
        = [.currentBlockNumber] ∧
    (get_eth1_data 0 okFetcher (update_cache 1 okFetcher CacheState.new).2.1).2.2
        ≠ [] ∧
    (get_eth1_data 1 okFetcher (update_cache 1 okFetcher CacheState.new).2.1).2.2
        = [.currentBlockNumber, .depositRoot 4, .depositCount 4, .blockHash 4] := by
  refine ⟨rfl, rfl, by decide, rfl⟩

/-- C6 (amended): after a successful `update_cache(d)` with the head
unchanged, `get_eth1_data(k)` for any `k < d` returns the cached value,
leaves the state untouched, and performs exactly one network call — the
fresh head query — and no per-height queries. -/
theorem get_eth1_data_cached_after_update (f : Fetcher) (s : CacheState)
    (dist k curr : Nat) (hhead : f.get_current_block_number = .ok curr)
    (hok : (update_cache dist f s).1 = .ok ()) (hk : k < dist) :
    ∃ v, mapGet (curr - k) (update_cache dist f s).2.1.cache = some v ∧
      get_eth1_data k f (update_cache dist f s).2.1
        = (.ok v, (update_cache dist f s).2.1, [.currentBlockNumber]) := by
  unfold update_cache at hok ⊢
  simp only [hhead] at hok ⊢
  rcases hup : updateGo f curr (List.range dist) s with ⟨r, s'⟩
  cases r with
  | error e =>
    simp only [hup] at hok
    simp at hok
  | ok u =>
    cases u
    simp only [hup]
    have hmem : k ∈ List.range dist := List.mem_range.mpr hk
    have hsome := updateGo_ok_mem f curr (List.range dist) s (by rw [hup]) k hmem
    rw [hup] at hsome
    simp only at hsome
    obtain ⟨v, hv⟩ := Option.isSome_iff_exists.mp hsome
    refine ⟨v, hv, ?_⟩
    unfold get_eth1_data
    simp only [hhead]
    have hv' : mapGet (curr - k)
        (CacheState.mk s'.cache (curr % 2 ^ 64)).cache = some v := hv
    simp only [hv']

/-- C6 witness: after `update_cache(1)` with head `5`, reading at distance
`0` hits the cache with only the head query. -/
theorem get_eth1_data_cached_after_update_witness :
    ∃ v, mapGet (5 - 0) (update_cache 1 okFetcher CacheState.new).2.1.cache
        = some v ∧
      get_eth1_data 0 okFetcher (update_cache 1 okFetcher CacheState.new).2.1
        = (.ok v, (update_cache 1 okFetcher CacheState.new).2.1,
            [.currentBlockNumber]) :=
  get_eth1_data_cached_after_update okFetcher CacheState.new 1 0 5 rfl rfl
    (by decide)

/-! ## C7: error kinds of `get_eth1_data` -/

/-- C7 counterexample: an absent block and a malformed deposit count — two
different failure conditions — produce the *identical* error value from
`get_eth1_data`, so the conditions are not distinguishable in the returned
error, and no distinct `MissingBlock` / `MalformedResponse` kinds exist. -/
theorem get_eth1_data_error_kinds_cex :
    (get_eth1_data 0 missingBlockFetcher CacheState.new).1
        = .error (.web3Error (.invalidResponse ("Failed to fetch eth1 data"))) ∧
    (get_eth1_data 0 malformedCountFetcher CacheState.new).1
        = .error (.web3Error (.invalidResponse ("Failed to fetch eth1 data"))) := by
  exact ⟨rfl, rfl⟩

/-- C7 (amended): `get_eth1_data` fails when the node cannot supply data, but
only head-query and transport-level per-height failures propagate their own
error value; every inner fetch failure — a malformed deposit count as well as
an absent block — is collapsed into the single error
`Web3Error(InvalidResponse("Failed to fetch eth1 data"))`. -/
theorem get_eth1_data_error_propagation (f : Fetcher) (s : CacheState)
    (dist : Nat) :
    (∀ e, f.get_current_block_number = .error e →
      (get_eth1_data dist f s).1 = .error e) ∧
    (∀ curr, f.get_current_block_number = .ok curr →
      mapGet (curr - dist) s.cache = none →
      (∀ e, fetch_eth1_data dist curr f = .error e →
        (get_eth1_data dist f s).1 = .error e) ∧
      (∀ e, fetch_eth1_data dist curr f = .ok (.error e) →
        (get_eth1_data dist f s).1
          = .error (.web3Error (.invalidResponse ("Failed to fetch eth1 data"))))) := by
  refine ⟨fun e he => ?_, fun curr hc hmiss => ⟨fun e he => ?_, fun e he => ?_⟩⟩
  · simp [get_eth1_data, he]
  · simp [get_eth1_data, hc, hmiss, he]
  · simp [get_eth1_data, hc, hmiss, he]

/-- C7 witness: the collapse branch at the missing-block fetcher. -/
theorem get_eth1_data_error_propagation_witness :
    (get_eth1_data 0 missingBlockFetcher ⟨[(9, ⟨1, 1, 1⟩)], 4⟩).1
      = .error (.web3Error (.invalidResponse ("Failed to fetch eth1 data"))) :=
  ((get_eth1_data_error_propagation missingBlockFetcher ⟨[(9, ⟨1, 1, 1⟩)], 4⟩ 0).2
      5 rfl rfl).2
    (.web3Error (.invalidResponse ("Block at given height does not exist"))) rfl

/-! ## C9: failed `get_eth1_data` leaves the state untouched -/

/-- C9: whenever `get_eth1_data` returns an error — head-query failure,
per-height future failure, or the collapsed inner failure (malformed count /
absent block, the branch annotated `Should never reach here`) — the cache map
and `last_block` are exactly as before the call. -/
theorem get_eth1_data_error_frame (f : Fetcher) (s : CacheState) (dist : Nat)
    (e : Error) (herr : (get_eth1_data dist f s).1 = .error e) :
    (get_eth1_data dist f s).2.1 = s := by
  unfold get_eth1_data at herr ⊢
  cases hhead : f.get_current_block_number with
  | error e' => simp
  | ok curr =>
    simp only [hhead] at herr ⊢
    cases hc : mapGet (curr - dist) s.cache with
    | some r => simp only [hc] at herr; exact Except.noConfusion herr
    | none =>
      simp only [hc] at herr ⊢
      cases hf : fetch_eth1_data dist curr f with
      | error e'' => simp [hf]
      | ok r =>
        cases r with
        | error e'' => simp [hf]
        | ok p =>
          obtain ⟨bn, data⟩ := p
          simp only [hf] at herr
          exact Except.noConfusion herr

/-- C9 witness: the error path through the `Should never reach here` branch
leaves a nonempty state byte-for-byte unchanged. -/
theorem get_eth1_data_error_frame_witness :
    (get_eth1_data 0 missingBlockFetcher ⟨[(2, ⟨7, 8, 9⟩)], 3⟩).2.1
      = ⟨[(2, ⟨7, 8, 9⟩)], 3⟩ :=
  get_eth1_data_error_frame missingBlockFetcher ⟨[(2, ⟨7, 8, 9⟩)], 3⟩ 0
    (.web3Error (.invalidResponse ("Failed to fetch eth1 data"))) rfl

/-! ## C8: `get_eth1_data_in_range` semantics -/

/-- The spec's reading of `get_eth1_data_in_range` (§4.2): the successive
per-distance results of `get_eth1_data`, state threaded left to right, before
the silent omission of failures. -/
def specSuccessiveResults (f : Fetcher) :
    List Nat → CacheState → List (Except Error Eth1Data)
  | [], _ => []
  | h :: rest, s =>
    (get_eth1_data h f s).1
      :: specSuccessiveResults f rest (get_eth1_data h f s).2.1

theorem specSuccessiveResults_length (f : Fetcher) (L : List Nat) (s : CacheState) :
    (specSuccessiveResults f L s).length = L.length := by
  induction L generalizing s with
  | nil => rfl
  | cons h rest ih => simp [specSuccessiveResults, ih]

theorem rangeGo_spec (f : Fetcher) (L : List Nat) (s : CacheState) :
    (rangeGo f L s).1
      = (specSuccessiveResults f L s).filterMap Except.toOption := by
  induction L generalizing s with
  | nil => rfl
  | cons h rest ih =>
    rcases hg : get_eth1_data h f s with ⟨r, s', c⟩
    cases r with
    | ok d => simp [rangeGo, specSuccessiveResults, hg, Except.toOption, ih]
    | error e => simp [rangeGo, specSuccessiveResults, hg, Except.toOption, ih]

/-- C8: `get_eth1_data_in_range(start, end)` returns exactly the successful
results of the successive `get_eth1_data(h)` calls for `h` in `[start, end)`,
in increasing distance order, with failed heights silently omitted — so the
result may be shorter than `end - start`, and the operation itself never
fails. -/
theorem get_eth1_data_in_range_spec (start stop : Nat) (f : Fetcher)
    (s : CacheState) :
    (get_eth1_data_in_range start stop f s).1
      = (specSuccessiveResults f (List.range' start (stop - start)) s).filterMap
          Except.toOption ∧
    (get_eth1_data_in_range start stop f s).1.length ≤ stop - start := by
  constructor
  · exact rangeGo_spec f (List.range' start (stop - start)) s
  · rw [get_eth1_data_in_range, rangeGo_spec]
    calc ((specSuccessiveResults f (List.range' start (stop - start)) s).filterMap
          Except.toOption).length
        ≤ (specSuccessiveResults f (List.range' start (stop - start)) s).length :=
          List.length_filterMap_le _ _
      _ = (List.range' start (stop - start)).length :=
          specSuccessiveResults_length _ _ _
      _ = stop - start := List.length_range' _ _ _
